import Mathlib

/-!
Verification of the multi-stage piecewise-range remapping pipeline of
`src/day5/mod.rs` (Advent of Code 2023, day 5).

All `u32` values are embedded as `Nat`.  Where the Rust code can overflow we
model the release-build semantics explicitly: `saturating_add` becomes
`satAdd` (capped at `u32::MAX`), and the plain `+` in `MapEntry::map` becomes
addition reduced modulo `2^32` (release builds wrap).  Plain `u32`
subtractions appear only where the code has already established
`minuend >= subtrahend`, so truncated `Nat` subtraction coincides with them
on every reachable argument.
-/

namespace Day5

/-- `2^32`, the size of the `u32` domain. -/
def U32_MOD : Nat := 4294967296

/-- `u32::MAX = 2^32 - 1`. -/
def U32_MAX : Nat := 4294967295

/-- Model of `u32::saturating_add`. -/
def satAdd (a b : Nat) : Nat := min (a + b) U32_MAX

/-- Model of `struct MapEntry { source_start, target_start, range_length }`
(`src/day5/mod.rs:109-114`).  The derived Rust `Eq` compares all three
fields; the hand-written `Ord` compares `source_start` only. -/
structure MapEntry where
  source_start : Nat
  target_start : Nat
  range_length : Nat
deriving DecidableEq, Repr

/-- `MapEntry::source_end` (`src/day5/mod.rs:129-131`):
`source_start.saturating_add(range_length)`. -/
def MapEntry.source_end (e : MapEntry) : Nat := satAdd e.source_start e.range_length

/-- `MapEntry::matches` (`src/day5/mod.rs:141-143`):
`source >= source_start && source - source_start < range_length`.
The subtraction is guarded by the first conjunct, so truncated subtraction
is exact here. -/
def MapEntry.matches (e : MapEntry) (source : Nat) : Bool :=
  e.source_start ≤ source && source - e.source_start < e.range_length

/-- `MapEntry::map` (`src/day5/mod.rs:145-147`):
`source - source_start + target_start` on `u32`.  Release builds wrap, hence
the `% 2^32`; every caller first establishes `source >= source_start`, so the
truncated subtraction agrees with the `u32` one. -/
def MapEntry.map (e : MapEntry) (source : Nat) : Nat :=
  (source - e.source_start + e.target_start) % U32_MOD

/-- `MapEntry::try_match` (`src/day5/mod.rs:133-139`). -/
def MapEntry.try_match (e : MapEntry) (source : Nat) : Option Nat :=
  if e.matches source then some (e.map source) else none

/-- A half-open interval `start..stop` of `u32`s (Rust `Range<u32>`;
`end` is a Lean keyword, so the field is called `stop`). -/
structure Rng where
  start : Nat
  stop : Nat
deriving DecidableEq, Repr

/-- Number of values in a half-open interval. -/
def rngLen (r : Rng) : Nat := r.stop - r.start

/-- Model of `struct Map(BTreeSet<MapEntry>)` (`src/day5/mod.rs:150-151`):
the set is embedded as its ascending iteration order, a list of entries. -/
structure Map where
  entries : List MapEntry
deriving DecidableEq, Repr

/-- The `BTreeSet` invariant actually guaranteed for every constructed `Map`:
entries are weakly sorted by `source_start` (the `Ord` key).  It is weak
rather than strict because `Ord` ignores the other two fields while the
bulk-build path of `collect()` deduplicates by the full derived `Eq`, so a
set can hold several entries sharing one `source_start`. -/
def Map.Wf (m : Map) : Prop :=
  m.entries.Pairwise (fun a b => a.source_start ≤ b.source_start)

/-- First-match-or-identity scan, the body of `Map::map`
(`src/day5/mod.rs:154-159`): `iter().find_map(try_match).unwrap_or(source)`. -/
def scalarMap (entries : List MapEntry) (source : Nat) : Nat :=
  (entries.findSome? (fun e => e.try_match source)).getD source

/-- `Map::map` (`src/day5/mod.rs:154-159`). -/
def Map.map (m : Map) (source : Nat) : Nat :=
  scalarMap m.entries source

/-- The loop of `Map::map_range` (`src/day5/mod.rs:161-192`) as a recursion
on the cursor `current` and the not-yet-consumed suffix of the entry list.
`gap`/`cur` package the code's `if current < entry.source_start { push gap;
current = entry.source_start; }` mutation: `cur = max current source_start`
is the cursor value after that `if`. -/
def Map.mapRangeGo (rend : Nat) : Nat → List MapEntry → List Rng
  | current, [] =>
    if current < rend then [⟨current, rend⟩] else []
  | current, me :: rest =>
    if h0 : current < rend then
      if h1 : me.source_end ≤ current then
        Map.mapRangeGo rend current rest
      else if h2 : me.source_start < rend then
        let gap : List Rng :=
          if current < me.source_start then [⟨current, me.source_start⟩] else []
        let cur := max current me.source_start
        let tstart := me.map cur
        let tlen := min (me.range_length - (cur - me.source_start)) (rend - cur)
        gap ++ ⟨tstart, satAdd tstart tlen⟩ :: Map.mapRangeGo rend (satAdd cur tlen) (me :: rest)
      else
        [⟨current, rend⟩]
    else
      []
termination_by current entries => entries.length + (rend - current)
decreasing_by
  · simp only [List.length_cons]
    omega
  · simp only [List.length_cons]
    have hse : me.source_end = min (me.source_start + me.range_length) U32_MAX := rfl
    simp only [satAdd, hse] at *
    omega

/-- `Map::map_range` (`src/day5/mod.rs:161-192`). -/
def Map.map_range (m : Map) (r : Rng) : List Rng :=
  Map.mapRangeGo r.stop r.start m.entries

/-- Loop-iteration counter for `Map::map_range`: identical control flow to
`mapRangeGo`, counting one per executed loop iteration. -/
def Map.mapRangeSteps (rend : Nat) : Nat → List MapEntry → Nat
  | current, [] =>
    if current < rend then 1 else 0
  | current, me :: rest =>
    if h0 : current < rend then
      if h1 : me.source_end ≤ current then
        1 + Map.mapRangeSteps rend current rest
      else if h2 : me.source_start < rend then
        let cur := max current me.source_start
        let tlen := min (me.range_length - (cur - me.source_start)) (rend - cur)
        1 + Map.mapRangeSteps rend (satAdd cur tlen) (me :: rest)
      else
        1
    else
      0
termination_by current entries => entries.length + (rend - current)
decreasing_by
  · simp only [List.length_cons]
    omega
  · simp only [List.length_cons]
    have hse : me.source_end = min (me.source_start + me.range_length) U32_MAX := rfl
    simp only [satAdd, hse] at *
    omega

/-- `map_all` (`src/day5/mod.rs:96-98`):
`maps.iter().fold(source, |value, map| map.map(value))`. -/
def map_all (maps : List Map) (source : Nat) : Nat :=
  maps.foldl (fun value m => m.map value) source

/-- `map_range_all` (`src/day5/mod.rs:100-107`):
fold over stages, flat-mapping each working-set interval through
`map_range`. -/
def map_range_all (maps : List Map) (ranges : List Rng) : List Rng :=
  maps.foldl (fun rs m => rs.flatMap (fun r => m.map_range r)) ranges

/-- Stage-by-stage composition, the spec's reading of the pipeline fold:
the output of stage `i` is the input of stage `i+1`. -/
def applyStages : List Map → Nat → Nat
  | [], v => v
  | m :: rest, v => applyStages rest (m.map v)

/-- The deduplication performed by `BTreeSet`'s bulk build
(`DedupSortedIter` in Rust's alloc crate): of a run of consecutive elements
equal under the derived `Eq` (all three fields), only the last is yielded. -/
def dedupByEq : List MapEntry → List MapEntry
  | [] => []
  | [x] => [x]
  | x :: y :: rest =>
    if x = y then dedupByEq (y :: rest) else x :: dedupByEq (y :: rest)

/-- The stable sort by `Ord` (which compares `source_start` only) performed
by `BTreeSet`'s `FromIterator`. -/
def sortEntries (l : List MapEntry) : List MapEntry :=
  l.mergeSort (fun a b => a.source_start ≤ b.source_start)

/-- `impl From<I> for Map` (`src/day5/mod.rs:195-212`) after parsing: the
Rust `collect::<BTreeSet<_>>()` stable-sorts the entries by `source_start`
and removes only consecutive duplicates that are equal under the full
derived `Eq`. -/
def Map.fromEntries (l : List MapEntry) : Map :=
  ⟨dedupByEq (sortEntries l)⟩

/-- Expansion of one interval into the list of values it contains. -/
def expandRng (r : Rng) : List Nat :=
  List.range' r.start (r.stop - r.start)

/-- Expansion of a list of intervals into all contained values. -/
def expandAll (l : List Rng) : List Nat :=
  l.flatMap expandRng

/-- Total number of values covered by a list of intervals. -/
def sumLens (l : List Rng) : Nat :=
  (l.map rngLen).sum

/-- A segment whose destination range stays inside the `u32` domain. -/
def MapEntry.destOk (e : MapEntry) : Prop :=
  e.target_start + e.range_length ≤ U32_MAX

instance (e : MapEntry) : Decidable e.destOk := by
  unfold MapEntry.destOk; infer_instance

instance (m : Map) : Decidable m.Wf := by
  unfold Map.Wf; infer_instance

/-! ## Unfolding lemmas for the `map_range` loop -/

theorem mapRangeGo_stop {rend current : Nat} (entries : List MapEntry)
    (h : ¬ current < rend) : Map.mapRangeGo rend current entries = [] := by
  cases entries with
  | nil => rw [Map.mapRangeGo]; simp [h]
  | cons me rest => rw [Map.mapRangeGo]; simp [h]

theorem mapRangeGo_nil {rend current : Nat} (h : current < rend) :
    Map.mapRangeGo rend current [] = [⟨current, rend⟩] := by
  rw [Map.mapRangeGo]; simp [h]

theorem mapRangeGo_skip {rend current : Nat} {me : MapEntry} {rest : List MapEntry}
    (h0 : current < rend) (h1 : me.source_end ≤ current) :
    Map.mapRangeGo rend current (me :: rest) = Map.mapRangeGo rend current rest := by
  rw [Map.mapRangeGo]; simp [h0, h1]

theorem mapRangeGo_tail {rend current : Nat} {me : MapEntry} {rest : List MapEntry}
    (h0 : current < rend) (h1 : ¬ me.source_end ≤ current)
    (h2 : ¬ me.source_start < rend) :
    Map.mapRangeGo rend current (me :: rest) = [⟨current, rend⟩] := by
  rw [Map.mapRangeGo]; simp [h0, h1, h2]

theorem mapRangeGo_emit {rend current : Nat} {me : MapEntry} {rest : List MapEntry}
    (h0 : current < rend) (h1 : ¬ me.source_end ≤ current)
    (h2 : me.source_start < rend) {cur tstart tlen : Nat}
    (hcur : cur = max current me.source_start)
    (hts : tstart = me.map cur)
    (htl : tlen = min (me.range_length - (cur - me.source_start)) (rend - cur)) :
    Map.mapRangeGo rend current (me :: rest) =
      (if current < me.source_start then [⟨current, me.source_start⟩] else []) ++
        ⟨tstart, satAdd tstart tlen⟩ ::
          Map.mapRangeGo rend (satAdd cur tlen) (me :: rest) := by
  subst hcur; subst hts; subst htl
  rw [Map.mapRangeGo]
  simp only [dif_pos h0, dif_neg h1, dif_pos h2]

theorem mapRangeSteps_stop {rend current : Nat} (entries : List MapEntry)
    (h : ¬ current < rend) : Map.mapRangeSteps rend current entries = 0 := by
  cases entries with
  | nil => rw [Map.mapRangeSteps]; simp [h]
  | cons me rest => rw [Map.mapRangeSteps]; simp [h]

theorem mapRangeSteps_nil {rend current : Nat} (h : current < rend) :
    Map.mapRangeSteps rend current [] = 1 := by
  rw [Map.mapRangeSteps]; simp [h]

theorem mapRangeSteps_skip {rend current : Nat} {me : MapEntry} {rest : List MapEntry}
    (h0 : current < rend) (h1 : me.source_end ≤ current) :
    Map.mapRangeSteps rend current (me :: rest) =
      1 + Map.mapRangeSteps rend current rest := by
  rw [Map.mapRangeSteps]; simp [h0, h1]

theorem mapRangeSteps_tail {rend current : Nat} {me : MapEntry} {rest : List MapEntry}
    (h0 : current < rend) (h1 : ¬ me.source_end ≤ current)
    (h2 : ¬ me.source_start < rend) :
    Map.mapRangeSteps rend current (me :: rest) = 1 := by
  rw [Map.mapRangeSteps]; simp [h0, h1, h2]

theorem mapRangeSteps_emit {rend current : Nat} {me : MapEntry} {rest : List MapEntry}
    (h0 : current < rend) (h1 : ¬ me.source_end ≤ current)
    (h2 : me.source_start < rend) {cur tlen : Nat}
    (hcur : cur = max current me.source_start)
    (htl : tlen = min (me.range_length - (cur - me.source_start)) (rend - cur)) :
    Map.mapRangeSteps rend current (me :: rest) =
      1 + Map.mapRangeSteps rend (satAdd cur tlen) (me :: rest) := by
  subst hcur; subst htl
  rw [Map.mapRangeSteps]
  simp only [dif_pos h0, dif_neg h1, dif_pos h2]

end Day5

namespace Day5

/-! ## Scalar translation helpers -/

theorem matches_iff (e : MapEntry) (v : Nat) :
    e.matches v = true ↔ e.source_start ≤ v ∧ v < e.source_start + e.range_length := by
  simp only [MapEntry.matches, Bool.and_eq_true, decide_eq_true_eq]
  omega

theorem scalarMap_nil (v : Nat) : scalarMap [] v = v := rfl

theorem scalarMap_cons_head {me : MapEntry} {rest : List MapEntry} {v : Nat}
    (h : me.matches v = true) : scalarMap (me :: rest) v = me.map v := by
  simp [scalarMap, List.findSome?, MapEntry.try_match, h]

theorem scalarMap_cons_skip {me : MapEntry} {rest : List MapEntry} {v : Nat}
    (h : me.matches v = false) : scalarMap (me :: rest) v = scalarMap rest v := by
  simp [scalarMap, List.findSome?, MapEntry.try_match, h]

theorem scalarMap_no_match {entries : List MapEntry} {v : Nat}
    (h : ∀ e ∈ entries, e.matches v = false) : scalarMap entries v = v := by
  induction entries with
  | nil => rfl
  | cons me rest ih =>
    rw [scalarMap_cons_skip (h me (by simp))]
    exact ih (fun e he => h e (by simp [he]))

theorem scalarMap_eq_find (entries : List MapEntry) (v : Nat) :
    scalarMap entries v =
      match entries.find? (fun e => e.matches v) with
      | some e => e.map v
      | none => v := by
  induction entries with
  | nil => rfl
  | cons me rest ih =>
    cases hm : me.matches v with
    | true => rw [scalarMap_cons_head hm]; simp [List.find?, hm]
    | false => rw [scalarMap_cons_skip hm]; simp [List.find?, hm]; exact ih

theorem find_first_minimal {entries : List MapEntry} {v : Nat} {e : MapEntry}
    (hs : entries.Pairwise (fun a b => a.source_start ≤ b.source_start))
    (hf : entries.find? (fun x => x.matches v) = some e) :
    ∀ x ∈ entries, x.matches v = true → e.source_start ≤ x.source_start := by
  induction entries with
  | nil => simp at hf
  | cons me rest ih =>
    rcases List.pairwise_cons.mp hs with ⟨hhead, htail⟩
    cases hm : me.matches v with
    | true =>
      simp only [List.find?, hm] at hf
      injection hf with hf
      subst hf
      intro x hx _
      rcases List.mem_cons.mp hx with h | h
      · subst h; exact Nat.le_refl _
      · exact hhead x h
    | false =>
      simp only [List.find?, hm] at hf
      intro x hx hxm
      rcases List.mem_cons.mp hx with h | h
      · subst h; rw [hm] at hxm; exact absurd hxm (by simp)
      · exact ih htail hf x h hxm

/-- C5: `Map::map` scans entries in ascending `source_start` order, returns
the first covering entry's translation, falls back to the identity, and the
winning entry has minimal `source_start` among all covering entries. -/
theorem c5_scalar_first_match (m : Map) (v : Nat) (hs : m.Wf) :
    (m.map v = match m.entries.find? (fun e => e.matches v) with
       | some e => e.map v
       | none => v)
    ∧ ((∀ e ∈ m.entries, e.matches v = false) → m.map v = v)
    ∧ (∀ e, m.entries.find? (fun x => x.matches v) = some e →
        ∀ x ∈ m.entries, x.matches v = true → e.source_start ≤ x.source_start) := by
  refine ⟨scalarMap_eq_find m.entries v, fun h => scalarMap_no_match h, ?_⟩
  intro e hf
  exact find_first_minimal hs hf

theorem c5_witness :
    Map.Wf ⟨[⟨50, 52, 48⟩, ⟨98, 50, 2⟩]⟩ ∧
      ((Map.map ⟨[⟨50, 52, 48⟩, ⟨98, 50, 2⟩]⟩ 79 =
        match ([⟨50, 52, 48⟩, ⟨98, 50, 2⟩] : List MapEntry).find?
            (fun e => e.matches 79) with
         | some e => e.map 79
         | none => 79)
      ∧ ((∀ e ∈ ([⟨50, 52, 48⟩, ⟨98, 50, 2⟩] : List MapEntry),
            e.matches 79 = false) → Map.map ⟨[⟨50, 52, 48⟩, ⟨98, 50, 2⟩]⟩ 79 = 79)
      ∧ (∀ e, ([⟨50, 52, 48⟩, ⟨98, 50, 2⟩] : List MapEntry).find?
            (fun x => x.matches 79) = some e →
          ∀ x ∈ ([⟨50, 52, 48⟩, ⟨98, 50, 2⟩] : List MapEntry),
            x.matches 79 = true → e.source_start ≤ x.source_start)) :=
  ⟨by decide, c5_scalar_first_match ⟨[⟨50, 52, 48⟩, ⟨98, 50, 2⟩]⟩ 79 (by decide)⟩

/-- C6: the pipeline fold `map_all` equals stage-by-stage composition. -/
theorem c6_pipeline_fold : ∀ (maps : List Map) (v : Nat),
    map_all maps v = applyStages maps v := by
  intro maps
  induction maps with
  | nil => intro v; rfl
  | cons m rest ih => intro v; simp only [map_all, List.foldl, applyStages] at *; exact ih (m.map v)

/-- C3 counterexample: for the segment `(source_start 0, destination 2^32-1,
length 2)` the covered value `1` is mapped by `MapEntry::map` to `0`
(wrapping modulo `2^32`), not to the saturated value `2^32-1`. -/
theorem c3_counterexample :
    MapEntry.matches ⟨0, U32_MAX, 2⟩ 1 = true
    ∧ MapEntry.map ⟨0, U32_MAX, 2⟩ 1 = 0
    ∧ min (1 - 0 + U32_MAX) U32_MAX = U32_MAX
    ∧ (0 : Nat) ≠ U32_MAX := by decide

/-- C3 amended: the offset computation in `MapEntry::map` wraps modulo
`2^32` rather than saturating; it is exact (no wrap, no need to saturate)
whenever the segment's destination range fits inside the `u32` domain. -/
theorem c3_offset_amended (e : MapEntry) (v : Nat) (hm : e.matches v = true)
    (hd : e.destOk) : e.map v = v - e.source_start + e.target_start := by
  have h := (matches_iff e v).1 hm
  have hmod : U32_MOD = 4294967296 := rfl
  have hmax : U32_MAX = 4294967295 := rfl
  unfold MapEntry.destOk at hd
  unfold MapEntry.map
  apply Nat.mod_eq_of_lt
  omega

theorem c3_witness :
    (MapEntry.matches ⟨5, 100, 10⟩ 7 = true ∧ MapEntry.destOk ⟨5, 100, 10⟩)
    ∧ MapEntry.map ⟨5, 100, 10⟩ 7 = 7 - 5 + 100 :=
  ⟨⟨by decide, by decide⟩, c3_offset_amended ⟨5, 100, 10⟩ 7 (by decide) (by decide)⟩

/-- C4 counterexample: for the segment `(source_start 5, length 2^32-1)`
whose `source_start + length` exceeds `u32::MAX`, `matches` accepts
`v = u32::MAX` although `v < source_end` fails (`source_end` saturates to
`u32::MAX`), so the claimed equivalence is false. -/
theorem c4_counterexample :
    ¬ (MapEntry.matches ⟨5, 0, U32_MAX⟩ U32_MAX = true ↔
        (5 ≤ U32_MAX ∧ U32_MAX < MapEntry.source_end ⟨5, 0, U32_MAX⟩)) := by decide

/-- C4 amended: `matches v` is equivalent to
`source_start ≤ v < source_start + length` in exact arithmetic; the claimed
equivalence with the saturating `source_end` holds whenever
`source_start + length ≤ u32::MAX` (no saturation). -/
theorem c4_cover_amended (e : MapEntry) (v : Nat) :
    (e.matches v = true ↔ e.source_start ≤ v ∧ v < e.source_start + e.range_length)
    ∧ (e.source_start + e.range_length ≤ U32_MAX →
        (e.matches v = true ↔ e.source_start ≤ v ∧ v < e.source_end)) := by
  constructor
  · exact matches_iff e v
  · intro hb
    rw [matches_iff]
    have hse : e.source_end = min (e.source_start + e.range_length) U32_MAX := rfl
    omega

theorem c4_witness :
    ((5 : Nat) + 10 ≤ U32_MAX)
    ∧ (MapEntry.matches ⟨5, 100, 10⟩ 7 = true ↔
        5 ≤ 7 ∧ 7 < MapEntry.source_end ⟨5, 100, 10⟩) :=
  ⟨by decide, (c4_cover_amended ⟨5, 100, 10⟩ 7).2 (by decide)⟩

/-- C8: an empty or inverted interval (`start >= end`) yields an empty
result list; `map_range` (like `map`) is a total function, so no query-time
error is possible in the embedded (release, wrapping) semantics. -/
theorem c8_empty_interval (m : Map) (r : Rng) (h : r.stop ≤ r.start) :
    m.map_range r = [] := by
  unfold Map.map_range
  exact mapRangeGo_stop _ (by omega)

theorem c8_witness :
    ((5 : Nat) ≤ 5) ∧ Map.map_range ⟨[⟨50, 200, 10⟩]⟩ ⟨5, 5⟩ = [] :=
  ⟨by decide, c8_empty_interval ⟨[⟨50, 200, 10⟩]⟩ ⟨5, 5⟩ (by decide)⟩

end Day5

namespace Day5

theorem matches_eq_false {e : MapEntry} {v : Nat}
    (h : v < e.source_start ∨ e.source_start + e.range_length ≤ v) :
    e.matches v = false := by
  cases hm : e.matches v with
  | false => rfl
  | true =>
    have := (matches_iff e v).1 hm
    omega

theorem expandAll_nil : expandAll [] = [] := rfl

theorem expandAll_cons (r : Rng) (l : List Rng) :
    expandAll (r :: l) = expandRng r ++ expandAll l := by
  simp [expandAll, List.flatMap_cons]

theorem expandAll_append (l1 l2 : List Rng) :
    expandAll (l1 ++ l2) = expandAll l1 ++ expandAll l2 := by
  simp [expandAll, List.flatMap_append]

theorem expandAll_length (l : List Rng) : (expandAll l).length = sumLens l := by
  induction l with
  | nil => rfl
  | cons r t ih =>
    rw [expandAll_cons]
    simp only [List.length_append, expandRng, List.length_range', ih]
    simp [sumLens, rngLen]

theorem range'_split (s m k : Nat) :
    List.range' s (m + k) = List.range' s m ++ List.range' (s + m) k := by
  have h := List.range'_append s m k 1
  simp only [Nat.one_mul] at h
  rw [Nat.add_comm m k]
  exact h.symm

theorem map_scalar_id {entries : List MapEntry} {l : List Nat}
    (h : ∀ v ∈ l, ∀ e ∈ entries, e.matches v = false) :
    l.map (scalarMap entries) = l := by
  calc l.map (scalarMap entries)
      = l.map id := List.map_congr_left (fun v hv => scalarMap_no_match (h v hv))
    _ = l := List.map_id _

/-- Central lemma: the expansion of the `map_range` loop's output over a
query interval with a `u32` right end is the pointwise image of the interval
under the first-match scalar translation, provided the entries are weakly
sorted by `source_start` and every destination range fits the `u32`
domain. -/
theorem mapRangeGo_expand {rend : Nat} (hrend : rend ≤ U32_MAX) :
    ∀ (n : Nat) (entries : List MapEntry) (current : Nat),
      entries.length + (rend - current) ≤ n →
      entries.Pairwise (fun a b => a.source_start ≤ b.source_start) →
      (∀ e ∈ entries, e.destOk) →
      expandAll (Map.mapRangeGo rend current entries)
        = (List.range' current (rend - current)).map (scalarMap entries) := by
  have hmax : U32_MAX = 4294967295 := rfl
  have hmod : U32_MOD = 4294967296 := rfl
  intro n
  induction n with
  | zero =>
    intro entries current hn _ _
    have he : entries = [] := by
      cases entries with
      | nil => rfl
      | cons a b => simp at hn
    subst he
    have h0 : ¬ current < rend := by simp at hn; omega
    rw [mapRangeGo_stop _ h0]
    have hz : rend - current = 0 := by omega
    rw [hz]
    rfl
  | succ n ih =>
    intro entries current hn hs hd
    by_cases h0 : current < rend
    · cases entries with
      | nil =>
        rw [mapRangeGo_nil h0]
        rw [expandAll_cons, expandAll_nil, List.append_nil, expandRng]
        exact (map_scalar_id (fun v _ e he => absurd he (List.not_mem_nil e))).symm
      | cons me rest =>
        rcases List.pairwise_cons.mp hs with ⟨hhead, htail⟩
        have hse : me.source_end = min (me.source_start + me.range_length) U32_MAX := rfl
        by_cases h1 : me.source_end ≤ current
        · -- skip branch: the head entry is already passed
          rw [mapRangeGo_skip h0 h1]
          rw [ih rest current (by simp only [List.length_cons] at hn; omega) htail
              (fun e he => hd e (List.mem_cons_of_mem _ he))]
          apply List.map_congr_left
          intro v hv
          rw [List.mem_range'_1] at hv
          exact (scalarMap_cons_skip (matches_eq_false (by omega))).symm
        · by_cases h2 : me.source_start < rend
          · -- emit branch
            rw [mapRangeGo_emit h0 h1 h2 rfl rfl rfl]
            have hdme : me.target_start + me.range_length ≤ U32_MAX :=
              hd me (List.mem_cons_self _ _)
            generalize hcur : max current me.source_start = cur
            have hc1 : current ≤ cur := by omega
            have hc2 : me.source_start ≤ cur := by omega
            have hc3 : cur < rend := by omega
            have hc4 : cur ≤ me.source_start + me.range_length := by omega
            have hmapcur : me.map cur = cur - me.source_start + me.target_start := by
              unfold MapEntry.map
              apply Nat.mod_eq_of_lt
              omega
            rw [hmapcur]
            generalize htl : min (me.range_length - (cur - me.source_start)) (rend - cur) = tlen
            have ht2 : cur + tlen ≤ rend := by omega
            have ht3 : tlen ≤ me.range_length - (cur - me.source_start) := by omega
            have hsat1 : satAdd (cur - me.source_start + me.target_start) tlen
                = cur - me.source_start + me.target_start + tlen := by
              unfold satAdd
              omega
            have hsat2 : satAdd cur tlen = cur + tlen := by
              unfold satAdd
              omega
            rw [hsat1, hsat2]
            have hlt : current < cur + tlen := by
              rcases Nat.lt_or_ge current me.source_start with hg | hg
              · omega
              · have hcc : cur = current := by omega
                omega
            rw [expandAll_append, expandAll_cons]
            rw [ih (me :: rest) (cur + tlen)
                (by simp only [List.length_cons] at hn ⊢; omega) hs hd]
            -- split the query interval at cur and at cur + tlen
            have hsplitlen : rend - current
                = (cur - current) + (tlen + (rend - (cur + tlen))) := by omega
            rw [hsplitlen, range'_split, range'_split]
            have harg1 : current + (cur - current) = cur := by omega
            rw [harg1]
            rw [List.map_append, List.map_append]
            congr 1
            · -- gap piece maps to itself
              by_cases hg : current < me.source_start
              · have hcs : cur = me.source_start := by omega
                rw [if_pos hg, expandAll_cons, expandAll_nil, List.append_nil, expandRng]
                dsimp only
                have hlen : me.source_start - current = cur - current := by omega
                rw [hlen]
                refine (map_scalar_id ?_).symm
                intro v hv e he
                rw [List.mem_range'_1] at hv
                rcases List.mem_cons.mp he with h | h
                · subst h; exact matches_eq_false (Or.inl (by omega))
                · exact matches_eq_false (Or.inl (by have := hhead e h; omega))
              · have hcs : cur = current := by omega
                rw [if_neg hg, expandAll_nil]
                rw [hcs, Nat.sub_self]
                simp
            congr 1
            -- translated piece
            rw [expandRng]
            have hsub : cur - me.source_start + me.target_start + tlen
                - (cur - me.source_start + me.target_start) = tlen := by omega
            rw [hsub]
            rw [List.range'_eq_map_range, List.range'_eq_map_range, List.map_map]
            refine (List.map_congr_left ?_).symm
            intro i hi
            rw [List.mem_range] at hi
            have hmm : me.matches (cur + i) = true := by
              rw [matches_iff]
              omega
            simp only [Function.comp_apply]
            rw [scalarMap_cons_head hmm]
            unfold MapEntry.map
            rw [Nat.mod_eq_of_lt (by omega)]
            omega
          · -- tail branch: remaining entries start at or beyond the query end
            rw [mapRangeGo_tail h0 h1 h2]
            rw [expandAll_cons, expandAll_nil, List.append_nil, expandRng]
            dsimp only
            refine (map_scalar_id ?_).symm
            intro v hv e he
            rw [List.mem_range'_1] at hv
            rcases List.mem_cons.mp he with h | h
            · subst h; exact matches_eq_false (Or.inl (by omega))
            · exact matches_eq_false (Or.inl (by have := hhead e h; omega))
    · rw [mapRangeGo_stop _ h0]
      have hz : rend - current = 0 := by omega
      rw [hz]
      rfl

end Day5

namespace Day5

/-- Shared concrete evaluation: a segment whose destination range ends
exactly at `2^32` loses its top value to `saturating_add` in `map_range`. -/
theorem mapRange_destsat_eval :
    Map.map_range ⟨[⟨0, 4294967286, 10⟩]⟩ ⟨0, 10⟩ = [⟨4294967286, 4294967295⟩] := by
  show Map.mapRangeGo 10 0 [⟨0, 4294967286, 10⟩] = [⟨4294967286, 4294967295⟩]
  rw [mapRangeGo_emit (by decide) (by decide) (by decide) rfl rfl rfl]
  norm_num [satAdd, U32_MAX, MapEntry.map, U32_MOD]
  exact mapRangeGo_stop _ (by decide)

/-- C1 counterexample: for the single segment `(src 0, dst 2^32-10, len 10)`
and query `[0,10)` the output covers only `9` values, not `10`. -/
theorem c1_counterexample :
    sumLens (Map.map_range ⟨[⟨0, 4294967286, 10⟩]⟩ ⟨0, 10⟩) = 9
    ∧ (9 : Nat) ≠ 10 - 0 := by
  rw [mapRange_destsat_eval]
  decide

/-- C1 amended: coverage conservation holds for every weakly sorted
StageMap all of whose segments have destination ranges inside the `u32`
domain (`target_start + length <= u32::MAX`). -/
theorem c1_conservation_amended (m : Map) (r : Rng) (hs : m.Wf)
    (hd : ∀ e ∈ m.entries, e.destOk) (hr : r.stop ≤ U32_MAX)
    (hle : r.start ≤ r.stop) :
    sumLens (m.map_range r) = r.stop - r.start := by
  have h := mapRangeGo_expand hr (m.entries.length + (r.stop - r.start))
      m.entries r.start (Nat.le_refl _) hs hd
  rw [← expandAll_length, Map.map_range, h, List.length_map, List.length_range']

theorem c1_witness :
    (Map.Wf ⟨[⟨50, 200, 10⟩]⟩
      ∧ (∀ e ∈ ([⟨50, 200, 10⟩] : List MapEntry), e.destOk)
      ∧ (70 : Nat) ≤ U32_MAX ∧ (40 : Nat) ≤ 70)
    ∧ sumLens (Map.map_range ⟨[⟨50, 200, 10⟩]⟩ ⟨40, 70⟩) = 70 - 40 :=
  ⟨⟨by decide, by decide, by decide, by decide⟩,
    c1_conservation_amended ⟨[⟨50, 200, 10⟩]⟩ ⟨40, 70⟩ (by decide) (by decide)
      (by decide) (by decide)⟩

/-- C2 counterexample: with the destination-overflow segment of
`mapRange_destsat_eval` the expanded output multiset has `9` elements while
the scalar image multiset of `[0,10)` has `10`, so they differ. -/
theorem c2_counterexample :
    Multiset.ofList (expandAll (Map.map_range ⟨[⟨0, 4294967286, 10⟩]⟩ ⟨0, 10⟩))
      ≠ Multiset.ofList ((List.range' 0 (10 - 0)).map
          (Map.map ⟨[⟨0, 4294967286, 10⟩]⟩)) := by
  rw [mapRange_destsat_eval]
  decide

/-- C2 amended: the multiset of values of the expanded output of
`map_range` equals the multiset of scalar translations of the interval's
values, for every weakly sorted StageMap whose segments' destination ranges
fit in the `u32` domain (the interval's `u32` bound `stop <= u32::MAX` is
the Rust type invariant). -/
theorem c2_scalar_range_equiv_amended (m : Map) (r : Rng) (hs : m.Wf)
    (hd : ∀ e ∈ m.entries, e.destOk) (hr : r.stop ≤ U32_MAX) :
    Multiset.ofList (expandAll (m.map_range r))
      = Multiset.ofList ((List.range' r.start (r.stop - r.start)).map m.map) := by
  have h := mapRangeGo_expand hr (m.entries.length + (r.stop - r.start))
      m.entries r.start (Nat.le_refl _) hs hd
  rw [Map.map_range, h]
  rfl

theorem c2_witness :
    (Map.Wf ⟨[⟨50, 200, 10⟩]⟩
      ∧ (∀ e ∈ ([⟨50, 200, 10⟩] : List MapEntry), e.destOk)
      ∧ (70 : Nat) ≤ U32_MAX)
    ∧ Multiset.ofList (expandAll (Map.map_range ⟨[⟨50, 200, 10⟩]⟩ ⟨40, 70⟩))
      = Multiset.ofList ((List.range' 40 (70 - 40)).map (Map.map ⟨[⟨50, 200, 10⟩]⟩)) :=
  ⟨⟨by decide, by decide, by decide⟩,
    c2_scalar_range_equiv_amended ⟨[⟨50, 200, 10⟩]⟩ ⟨40, 70⟩ (by decide) (by decide)
      (by decide)⟩

theorem mapRangeGo_length : ∀ (n rend : Nat) (entries : List MapEntry) (current : Nat),
    entries.length + (rend - current) ≤ n →
    (Map.mapRangeGo rend current entries).length ≤ 2 * entries.length + 1 := by
  intro n
  induction n with
  | zero =>
    intro rend entries current hn
    cases entries with
    | nil =>
      rw [mapRangeGo_stop _ (by simp at hn; omega)]
      simp
    | cons me rest => simp at hn
  | succ n ih =>
    intro rend entries current hn
    by_cases h0 : current < rend
    · cases entries with
      | nil => rw [mapRangeGo_nil h0]; simp
      | cons me rest =>
        by_cases h1 : me.source_end ≤ current
        · rw [mapRangeGo_skip h0 h1]
          have := ih rend rest current (by simp only [List.length_cons] at hn; omega)
          simp only [List.length_cons]
          omega
        · by_cases h2 : me.source_start < rend
          · rw [mapRangeGo_emit h0 h1 h2 rfl rfl rfl]
            have hse : me.source_end = min (me.source_start + me.range_length) U32_MAX := rfl
            have hmax : U32_MAX = 4294967295 := rfl
            generalize hcur : max current me.source_start = cur
            generalize htl :
              min (me.range_length - (cur - me.source_start)) (rend - cur) = tlen
            have hkey : me.source_end ≤ satAdd cur tlen ∨ rend ≤ satAdd cur tlen := by
              unfold satAdd
              omega
            have hgt : current < satAdd cur tlen := by
              unfold satAdd
              omega
            have hlen2 : (Map.mapRangeGo rend (satAdd cur tlen) (me :: rest)).length
                ≤ 2 * rest.length + 1 := by
              by_cases h0x : satAdd cur tlen < rend
              · rcases hkey with hk | hk
                · rw [mapRangeGo_skip h0x hk]
                  apply ih rend rest (satAdd cur tlen)
                  simp only [List.length_cons] at hn
                  omega
                · omega
              · rw [mapRangeGo_stop _ h0x]
                simp
            simp only [List.length_append, List.length_cons]
            by_cases hg : current < me.source_start
            · rw [if_pos hg]
              simp only [List.length_singleton]
              omega
            · rw [if_neg hg]
              simp only [List.length_nil]
              omega
          · rw [mapRangeGo_tail h0 h1 h2]
            simp only [List.length_cons, List.length_nil]
            omega
    · rw [mapRangeGo_stop _ h0]
      simp

/-- C7 counterexample: (i) the working-set size can decrease across a stage
(an empty interval vanishes), and (ii) a single stage with one segment can
turn one interval into three, exceeding the claimed bound `segment count
plus one per initial interval`. -/
theorem c7_counterexample :
    (map_range_all [⟨[]⟩] [⟨5, 5⟩]).length = 0
    ∧ ([(⟨5, 5⟩ : Rng)].length = 1)
    ∧ Map.map_range ⟨[⟨50, 200, 10⟩]⟩ ⟨40, 70⟩ = [⟨40, 50⟩, ⟨200, 210⟩, ⟨60, 70⟩]
    ∧ ¬ ((Map.map_range ⟨[⟨50, 200, 10⟩]⟩ ⟨40, 70⟩).length
          ≤ ([(⟨50, 200, 10⟩ : MapEntry)].length) + 1) := by
  have h1 : Map.mapRangeGo 5 5 ([] : List MapEntry) = [] := mapRangeGo_stop _ (by decide)
  have h3 : Map.map_range ⟨[⟨50, 200, 10⟩]⟩ ⟨40, 70⟩ = [⟨40, 50⟩, ⟨200, 210⟩, ⟨60, 70⟩] := by
    show Map.mapRangeGo 70 40 [⟨50, 200, 10⟩] = [⟨40, 50⟩, ⟨200, 210⟩, ⟨60, 70⟩]
    rw [mapRangeGo_emit (by decide) (by decide) (by decide) rfl rfl rfl]
    norm_num [satAdd, U32_MAX, MapEntry.map, U32_MOD]
    rw [mapRangeGo_skip (by norm_num) (by decide)]
    rw [mapRangeGo_nil (by norm_num)]
  refine ⟨?_, by decide, h3, ?_⟩
  · show (Map.mapRangeGo 5 5 ([] : List MapEntry) ++ []).length = 0
    rw [h1]
    rfl
  · rw [h3]
    decide

/-- C7 amended: per stage, one input interval produces at most
`2 * (segment count) + 1` output intervals, a bound independent of the
interval's width; the working-set size is not monotone (empty intervals
produce no output). -/
theorem c7_stage_output_bound (m : Map) (r : Rng) :
    (m.map_range r).length ≤ 2 * m.entries.length + 1 :=
  mapRangeGo_length (m.entries.length + (r.stop - r.start)) r.stop m.entries r.start
    (Nat.le_refl _)

theorem mapRangeSteps_bound : ∀ (n rend : Nat) (entries : List MapEntry) (current : Nat),
    entries.length + (rend - current) ≤ n →
    Map.mapRangeSteps rend current entries
      ≤ entries.length + (Map.mapRangeGo rend current entries).length := by
  intro n
  induction n with
  | zero =>
    intro rend entries current hn
    cases entries with
    | nil =>
      rw [mapRangeSteps_stop _ (by simp at hn; omega)]
      simp
    | cons me rest => simp at hn
  | succ n ih =>
    intro rend entries current hn
    by_cases h0 : current < rend
    · cases entries with
      | nil =>
        rw [mapRangeSteps_nil h0, mapRangeGo_nil h0]
        simp
      | cons me rest =>
        by_cases h1 : me.source_end ≤ current
        · rw [mapRangeSteps_skip h0 h1, mapRangeGo_skip h0 h1]
          have := ih rend rest current (by simp only [List.length_cons] at hn; omega)
          simp only [List.length_cons]
          omega
        · by_cases h2 : me.source_start < rend
          · rw [mapRangeSteps_emit h0 h1 h2 rfl rfl, mapRangeGo_emit h0 h1 h2 rfl rfl rfl]
            have hse : me.source_end = min (me.source_start + me.range_length) U32_MAX := rfl
            have hmax : U32_MAX = 4294967295 := rfl
            generalize hcur : max current me.source_start = cur
            generalize htl :
              min (me.range_length - (cur - me.source_start)) (rend - cur) = tlen
            have hgt : current < satAdd cur tlen := by
              unfold satAdd
              omega
            have := ih rend (me :: rest) (satAdd cur tlen)
              (by simp only [List.length_cons] at hn ⊢; omega)
            simp only [List.length_cons] at this ⊢
            simp only [List.length_append, List.length_cons]
            by_cases hg : current < me.source_start
            · rw [if_pos hg]
              simp only [List.length_singleton]
              omega
            · rw [if_neg hg]
              simp only [List.length_nil]
              omega
          · rw [mapRangeSteps_tail h0 h1 h2, mapRangeGo_tail h0 h1 h2]
            simp
    · rw [mapRangeSteps_stop _ h0, mapRangeGo_stop _ h0]
      simp

/-- C9: the number of executed loop iterations of `Map::map_range` is
bounded by the segment count plus the number of emitted intervals (the
recursion is total, which is the termination claim itself); in particular it
does not depend on the width of the query interval. -/
theorem c9_termination_bound (m : Map) (r : Rng) :
    Map.mapRangeSteps r.stop r.start m.entries
      ≤ m.entries.length + (m.map_range r).length :=
  mapRangeSteps_bound (m.entries.length + (r.stop - r.start)) r.stop m.entries r.start
    (Nat.le_refl _)

end Day5

namespace Day5

theorem dedupByEq_sublist : ∀ (l : List MapEntry), (dedupByEq l).Sublist l
  | [] => by rw [dedupByEq]
  | [x] => by rw [dedupByEq]
  | x :: y :: rest => by
    rw [dedupByEq]
    by_cases h : x = y
    · rw [if_pos h]
      exact (dedupByEq_sublist (y :: rest)).cons x
    · rw [if_neg h]
      exact (dedupByEq_sublist (y :: rest)).cons₂ x

theorem dedupByEq_mem_of_mem : ∀ (l : List MapEntry) (e : MapEntry),
    e ∈ l → e ∈ dedupByEq l
  | [], e, h => absurd h (List.not_mem_nil e)
  | [x], e, h => by rw [dedupByEq]; exact h
  | x :: y :: rest, e, h => by
    rw [dedupByEq]
    by_cases hxy : x = y
    · rw [if_pos hxy]
      rcases List.mem_cons.mp h with he | he
      · apply dedupByEq_mem_of_mem
        rw [he, hxy]
        exact List.mem_cons_self y rest
      · exact dedupByEq_mem_of_mem (y :: rest) e he
    · rw [if_neg hxy]
      rcases List.mem_cons.mp h with he | he
      · rw [he]; exact List.mem_cons_self x _
      · exact List.mem_cons_of_mem x (dedupByEq_mem_of_mem (y :: rest) e he)

/-- C10 counterexample: two input segments with equal `source_start` but
different destinations are BOTH retained by the `collect()`-based
construction (stable sort + dedup by the full derived `Eq`), so a
constructed Map can hold two segments for one `source_start` and the later
line is not discarded. -/
theorem c10_counterexample :
    (Map.fromEntries [⟨50, 100, 10⟩, ⟨50, 200, 20⟩]).entries
      = [⟨50, 100, 10⟩, ⟨50, 200, 20⟩]
    ∧ ¬ (Map.fromEntries [⟨50, 100, 10⟩, ⟨50, 200, 20⟩]).entries.length ≤ 1
    ∧ (⟨50, 100, 10⟩ : MapEntry).source_start = (⟨50, 200, 20⟩ : MapEntry).source_start
    ∧ (⟨50, 100, 10⟩ : MapEntry) ≠ ⟨50, 200, 20⟩ := by
  have hsort : sortEntries [⟨50, 100, 10⟩, ⟨50, 200, 20⟩]
      = [⟨50, 100, 10⟩, ⟨50, 200, 20⟩] := by
    unfold sortEntries
    simp [List.mergeSort]
  have hev : (Map.fromEntries [⟨50, 100, 10⟩, ⟨50, 200, 20⟩]).entries
      = [⟨50, 100, 10⟩, ⟨50, 200, 20⟩] := by
    show dedupByEq (sortEntries [⟨50, 100, 10⟩, ⟨50, 200, 20⟩])
        = [⟨50, 100, 10⟩, ⟨50, 200, 20⟩]
    rw [hsort]
    decide
  refine ⟨hev, ?_, by decide, by decide⟩
  rw [hev]
  decide

/-- C10 amended: construction stable-sorts the entries by `source_start`
and removes only consecutive fully equal duplicates; hence every
constructed Map is weakly sorted by `source_start` and contains exactly the
set of input segments (no segment value is silently discarded; segments
sharing a `source_start` but differing elsewhere all survive). -/
theorem c10_construction_amended (l : List MapEntry) :
    (Map.fromEntries l).Wf
    ∧ ∀ e : MapEntry, e ∈ (Map.fromEntries l).entries ↔ e ∈ l := by
  constructor
  · show List.Pairwise _ (dedupByEq (sortEntries l))
    apply List.Pairwise.sublist (dedupByEq_sublist _)
    have h : List.Pairwise
        (fun a b : MapEntry => (decide (a.source_start ≤ b.source_start)) = true)
        (l.mergeSort (fun a b => a.source_start ≤ b.source_start)) :=
      List.sorted_mergeSort
        (by intro a b c hab hbc; simp at hab hbc ⊢; omega)
        (by intro a b; simp; omega) l
    exact h.imp (by intro a b hab; simpa using hab)
  · intro e
    constructor
    · intro h
      have h2 : e ∈ sortEntries l := (dedupByEq_sublist _).subset h
      exact (List.mergeSort_perm l _).mem_iff.mp h2
    · intro h
      apply dedupByEq_mem_of_mem
      exact (List.mergeSort_perm l _).mem_iff.mpr h

end Day5
